import Mathlib

/-!
Shallow embedding of the chratos node core (elliottminns/chratos) and proofs
about it.  Machine integers are modelled as Nat with explicit truncation
(mod 2 ^ w) at the points where the C++ fixed-width types can wrap.
External collaborators (Blake2b, Ed25519, proof-of-work validation) are
abstract function parameters: both sides of every theorem apply the same
collaborator, exactly as the C++ calls the same library routine.
-/

set_option maxRecDepth 8000

namespace chratos

/-! Association-list helpers mirroring std::unordered_map lookup / operator[]. -/

/-- Lookup in an association list (std::unordered_map::find). -/
def assoc_get {κ α : Type} [DecidableEq κ] (l : List (κ × α)) (k : κ) : Option α :=
  match l with
  | [] => none
  | (k', v) :: rest => if k' = k then some v else assoc_get rest k

/-- Update-or-insert in an association list (std::unordered_map::operator[] assignment). -/
def assoc_set {κ α : Type} [DecidableEq κ] (l : List (κ × α)) (k : κ) (v : α) :
    List (κ × α) :=
  match l with
  | [] => [(k, v)]
  | (k', v') :: rest => if k' = k then (k, v) :: rest else (k', v') :: assoc_set rest k v

/-- Removal from an association list (std::unordered_map::erase). -/
def assoc_del {κ α : Type} [DecidableEq κ] (l : List (κ × α)) (k : κ) : List (κ × α) :=
  match l with
  | [] => []
  | (k', v) :: rest => if k' = k then rest else (k', v) :: assoc_del rest k

theorem assoc_get_set_same {κ α : Type} [DecidableEq κ] (l : List (κ × α)) (k : κ) (v : α) :
    assoc_get (assoc_set l k v) k = some v := by
  induction l with
  | nil => simp [assoc_get, assoc_set]
  | cons hd tl ih =>
    by_cases h : hd.1 = k
    · simp [assoc_get, assoc_set, h]
    · simp [assoc_get, assoc_set, h, ih]

theorem assoc_get_set_ne {κ α : Type} [DecidableEq κ] (l : List (κ × α)) (k k' : κ) (v : α)
    (h : k ≠ k') : assoc_get (assoc_set l k v) k' = assoc_get l k' := by
  induction l with
  | nil => simp [assoc_get, assoc_set, h]
  | cons hd tl ih =>
    by_cases hk : hd.1 = k
    · simp [assoc_get, assoc_set, hk, h]
    · simp only [assoc_set, hk, if_false]
      by_cases hk' : hd.1 = k'
      · simp [assoc_get, hk']
      · simp [assoc_get, hk', ih]

theorem assoc_del_set {κ α : Type} [DecidableEq κ] (l : List (κ × α)) (k : κ) (v : α)
    (h : assoc_get l k = none) : assoc_del (assoc_set l k v) k = l := by
  induction l with
  | nil => simp [assoc_get, assoc_set, assoc_del]
  | cons hd tl ih =>
    by_cases hk : hd.1 = k
    · rw [assoc_get] at h
      simp [hk] at h
    · rw [assoc_get] at h
      simp only [hk, if_false] at h
      simp [assoc_set, assoc_del, hk, ih h]

theorem assoc_set_set {κ α : Type} [DecidableEq κ] (l : List (κ × α)) (k : κ) (v v' : α) :
    assoc_set (assoc_set l k v) k v' = assoc_set l k v' := by
  induction l with
  | nil => simp [assoc_set]
  | cons hd tl ih =>
    by_cases hk : hd.1 = k
    · simp [assoc_set, hk]
    · simp [assoc_set, hk, ih]

/-! The account codec (chratos/lib/numbers.cpp).

The Blake2b-40 checksum is an external collaborator; it enters the embedding
as a function parameter `chk : List Nat → Nat` applied to the big-endian
bytes of the 256-bit key.  The C++ writes the 5-byte digest into the low
bytes of a zeroed uint64, hence the structural bound mod 2 ^ 40. -/

/-- Big-endian byte decomposition of a 256-bit value (uint256_union::bytes). -/
def bytesBE (a : Nat) : List Nat :=
  (List.range 32).map (fun i => a / 2 ^ (8 * (31 - i)) % 256)

/-- Base-32 digit alphabet (account_lookup in numbers.cpp). -/
def account_lookup : List Char :=
  "13456789abcdefghijkmnopqrstuwxyz".toList

/-- Reverse lookup table (account_reverse in numbers.cpp), indexed by char code - 0x30. -/
def account_reverse : List Char :=
  "~0~1234567~~~~~~~~~~~~~~~~~~~~~~~~~~~~~~~~~~~~~~~89:;<=>?@AB~CDEFGHIJK~LMNO~~~~~".toList

/-- account_encode: the character for a 5-bit digit. -/
def account_encode (value : Nat) : Char :=
  account_lookup.getD value '~'

/-- account_decode: uint8 result of account_reverse[value - 0x30] - 0x30.
The subtraction is applied unconditionally, exactly as in the source. -/
def account_decode (value : Char) : Nat :=
  (account_reverse.getD (value.toNat - 0x30) '~').toNat - 0x30

/-- Digit-emission loop of encode_account: k base-32 digits, least significant
first, each pushed as a character. -/
def encode_digits (n : Nat) : Nat → List Char
  | 0 => []
  | k + 1 => account_encode (n % 32) :: encode_digits (n / 32) k

/-- uint256_union::encode_account, parametric in the Blake2b-40 collaborator:
number_l = (key << 40) | checksum, 60 digits pushed LSB-first, then the
reversed prefix, then the whole string is reversed. -/
def encode_account (chk : List Nat → Nat) (a : Nat) : List Char :=
  let check := chk (bytesBE a) % 2 ^ 40
  let number_l := a * 2 ^ 40 + check
  (encode_digits number_l 60 ++ ['_', 'r', 'h', 'c']).reverse

/-- Digit-consumption loop of decode_account: range check on the char code,
account_decode, the (dead, see C5) check against the tilde code 126, then
shift-accumulate into the uint512. -/
def decode_digits : List Char → Nat → Option Nat
  | [], acc => some acc
  | c :: rest, acc =>
    if c.toNat < 0x30 ∨ 0x80 ≤ c.toNat then none
    else
      let byte := account_decode c
      if byte = 126 then none
      else decode_digits rest ((acc * 32 + byte) % 2 ^ 512)

/-- uint256_union::decode_account, parametric in the Blake2b-40 collaborator.
Returns some key on success, none when the C++ sets the error flag. -/
def decode_account (chk : List Nat → Nat) (source : List Char) : Option Nat :=
  if source.length < 5 then none
  else
    let is_chr := source.getD 0 '~' == 'c' && source.getD 1 '~' == 'h' &&
      source.getD 2 '~' == 'r' && (source.getD 3 '~' == '_' || source.getD 3 '~' == '-')
    let is_nano := source.getD 0 '~' == 'n' && source.getD 1 '~' == 'a' &&
      source.getD 2 '~' == 'n' && source.getD 3 '~' == 'o' &&
      (source.getD 4 '~' == '_' || source.getD 4 '~' == '-')
    if (is_chr && source.length != 64) || (is_nano && source.length != 65) then none
    else if is_chr || is_nano then
      let digits := source.drop (if is_chr then 4 else 5)
      if digits.getD 0 '~' == '1' || digits.getD 0 '~' == '3' then
        match decode_digits digits 0 with
        | none => none
        | some number_l =>
          let acct := number_l / 2 ^ 40 % 2 ^ 256
          let check := number_l % 2 ^ 40
          let validation := chk (bytesBE acct) % 2 ^ 40
          if check = validation then some acct else none
      else none
    else none

/-! Arithmetic facts about the digit loops. -/

theorem encode_digits_length (n k : Nat) : (encode_digits n k).length = k := by
  induction k generalizing n with
  | zero => rfl
  | succ k ih => simp [encode_digits, ih]

/-- Big-endian digit list of the low k base-32 digits of n. -/
def digitsBE (n : Nat) : Nat → List Nat
  | 0 => []
  | k + 1 => n / 32 ^ k % 32 :: digitsBE n k

theorem digitsBE_length (n k : Nat) : (digitsBE n k).length = k := by
  induction k with
  | zero => rfl
  | succ k ih => simp [digitsBE, ih]

theorem digitsBE_lt (n k : Nat) : ∀ d ∈ digitsBE n k, d < 32 := by
  induction k with
  | zero => intro d hd; simp [digitsBE] at hd
  | succ k ih =>
    intro d hd
    simp only [digitsBE, List.mem_cons] at hd
    rcases hd with h | h
    · exact h ▸ Nat.mod_lt _ (by norm_num)
    · exact ih d h

theorem digitsBE_snoc (n k : Nat) :
    digitsBE n (k + 1) = digitsBE (n / 32) k ++ [n % 32] := by
  induction k with
  | zero => simp [digitsBE]
  | succ k ih =>
    have hdiv : n / 32 / 32 ^ k = n / 32 ^ (k + 1) := by
      rw [Nat.div_div_eq_div_mul, ← pow_succ']
    calc digitsBE n (k + 2) = n / 32 ^ (k + 1) % 32 :: digitsBE n (k + 1) := rfl
      _ = n / 32 ^ (k + 1) % 32 :: (digitsBE (n / 32) k ++ [n % 32]) := by rw [ih]
      _ = (n / 32 / 32 ^ k % 32 :: digitsBE (n / 32) k) ++ [n % 32] := by
          rw [hdiv, List.cons_append]
      _ = digitsBE (n / 32) (k + 1) ++ [n % 32] := rfl

theorem encode_digits_reverse (n k : Nat) :
    (encode_digits n k).reverse = (digitsBE n k).map account_encode := by
  induction k generalizing n with
  | zero => rfl
  | succ k ih =>
    calc (encode_digits n (k + 1)).reverse
        = (encode_digits (n / 32) k).reverse ++ [account_encode (n % 32)] := by
          simp [encode_digits]
      _ = (digitsBE (n / 32) k).map account_encode ++ [account_encode (n % 32)] := by
          rw [ih]
      _ = ((digitsBE (n / 32) k ++ [n % 32]).map account_encode) := by simp
      _ = (digitsBE n (k + 1)).map account_encode := by rw [← digitsBE_snoc]

theorem digitsBE_foldl (k : Nat) : ∀ n acc : Nat,
    (digitsBE n k).foldl (fun a d => a * 32 + d) acc = acc * 32 ^ k + n % 32 ^ k := by
  induction k with
  | zero => intro n acc; simp [digitsBE, Nat.mod_one]
  | succ k ih =>
    intro n acc
    have hsplit : n % 32 ^ (k + 1) = n % 32 ^ k + 32 ^ k * (n / 32 ^ k % 32) := by
      rw [pow_succ, Nat.mod_mul]
    calc (digitsBE n (k + 1)).foldl (fun a d => a * 32 + d) acc
        = (digitsBE n k).foldl (fun a d => a * 32 + d) (acc * 32 + n / 32 ^ k % 32) := rfl
      _ = (acc * 32 + n / 32 ^ k % 32) * 32 ^ k + n % 32 ^ k := ih n _
      _ = acc * 32 ^ (k + 1) + n % 32 ^ (k + 1) := by rw [hsplit]; ring

theorem account_encode_valid :
    ∀ d : Nat, d < 32 → 0x30 ≤ (account_encode d).toNat ∧ (account_encode d).toNat < 0x80 ∧
      account_decode (account_encode d) = d := by decide

theorem decode_digits_map : ∀ (ds : List Nat) (acc : Nat), (∀ d ∈ ds, d < 32) →
    (acc + 1) * 32 ^ ds.length ≤ 2 ^ 512 →
    decode_digits (ds.map account_encode) acc =
      some (ds.foldl (fun a d => a * 32 + d) acc) := by
  intro ds
  induction ds with
  | nil => intro acc _ _; rfl
  | cons d ds ih =>
    intro acc hlt hbound
    have hd : d < 32 := hlt d (List.mem_cons_self d ds)
    obtain ⟨h1, h2, h3⟩ := account_encode_valid d hd
    have hstep : (acc + 1) * 32 ≤ 2 ^ 512 := by
      have h32 : 1 ≤ 32 ^ ds.length := Nat.one_le_pow _ _ (by norm_num)
      calc (acc + 1) * 32 = (acc + 1) * 32 * 1 := by ring
        _ ≤ (acc + 1) * 32 * 32 ^ ds.length := Nat.mul_le_mul_left _ h32
        _ = (acc + 1) * 32 ^ (ds.length + 1) := by ring
        _ ≤ 2 ^ 512 := by simpa using hbound
    have hsmall : acc * 32 + d < 2 ^ 512 := by
      calc acc * 32 + d < acc * 32 + 32 := by omega
        _ = (acc + 1) * 32 := by ring
        _ ≤ 2 ^ 512 := hstep
    have hmod : (acc * 32 + d) % 2 ^ 512 = acc * 32 + d := Nat.mod_eq_of_lt hsmall
    have hrange : ¬ ((account_encode d).toNat < 0x30 ∨ 0x80 ≤ (account_encode d).toNat) := by
      omega
    have hne : account_decode (account_encode d) ≠ 126 := by omega
    have hbound' : (acc * 32 + d + 1) * 32 ^ ds.length ≤ 2 ^ 512 := by
      calc (acc * 32 + d + 1) * 32 ^ ds.length ≤ (acc + 1) * 32 * 32 ^ ds.length := by
            have hle : acc * 32 + d + 1 ≤ (acc + 1) * 32 := by omega
            exact Nat.mul_le_mul_right _ hle
        _ = (acc + 1) * 32 ^ (ds.length + 1) := by ring
        _ ≤ 2 ^ 512 := by simpa using hbound
    simp only [List.map_cons, decode_digits]
    rw [if_neg hrange, if_neg hne, h3, hmod,
      ih (acc * 32 + d) (fun x hx => hlt x (List.mem_cons_of_mem d hx)) hbound']
    simp [List.foldl_cons]

theorem decode_account_wf (chk : List Nat → Nat) (ds : List Nat) (h60 : ds.length = 60)
    (hlt : ∀ d ∈ ds, d < 32) (hhead : ds.getD 0 0 = 0 ∨ ds.getD 0 0 = 1) :
    decode_account chk (['c', 'h', 'r', '_'] ++ ds.map account_encode) =
      (if (ds.foldl (fun a d => a * 32 + d) 0) % 2 ^ 40 =
          chk (bytesBE ((ds.foldl (fun a d => a * 32 + d) 0) / 2 ^ 40 % 2 ^ 256)) % 2 ^ 40
       then some ((ds.foldl (fun a d => a * 32 + d) 0) / 2 ^ 40 % 2 ^ 256) else none) := by
  cases ds with
  | nil => simp at h60
  | cons d ds' =>
    have hd : d < 32 := hlt d (List.mem_cons_self d ds')
    have h60' : ds'.length = 59 := by simpa using h60
    have hlen : (['c', 'h', 'r', '_'] ++ (d :: ds').map account_encode).length = 64 := by
      simp [List.length_append, List.length_map, h60']
    have hdig : decode_digits ((d :: ds').map account_encode) 0 =
        some ((d :: ds').foldl (fun a d => a * 32 + d) 0) := by
      apply decode_digits_map _ _ hlt
      rw [h60]
      decide
    have hheadc : (((d :: ds').map account_encode).getD 0 '~' == '1' ||
        ((d :: ds').map account_encode).getD 0 '~' == '3') = true := by
      simp only [List.getD_cons_zero] at hhead
      simp only [List.map_cons, List.getD_cons_zero]
      rcases hhead with h | h <;> subst h <;> decide
    simp only [decode_account, List.append_eq, List.cons_append, List.nil_append] at *
    rw [if_neg (by simp only [List.length_cons] at hlen ⊢; omega)]
    simp only [List.getD_cons_zero, List.getD_cons_succ, List.map_cons]
    have hischr : (('c' == 'c' && 'h' == 'h' && 'r' == 'r' && ('_' == '_' || '_' == '-')) :
        Bool) = true := by decide
    have hisnano : (('c' == 'n' && 'h' == 'a' && 'r' == 'n' && '_' == 'o' &&
        (account_encode d == '_' || account_encode d == '-')) : Bool) = false := by
      simp
    simp only [hischr, hisnano, Bool.false_and, Bool.and_false, Bool.false_or, Bool.or_false,
      Bool.true_and, Bool.and_true, Bool.true_or]
    have hlen' : ('c' :: 'h' :: 'r' :: '_' :: account_encode d ::
        List.map account_encode ds').length = 64 := by
      simpa using hlen
    rw [if_neg (by simp [hlen'])]
    rw [if_pos (by simp)]
    simp only [if_true, List.drop_succ_cons, List.drop_zero]
    simp only [List.map_cons] at hheadc hdig
    rw [if_pos hheadc, hdig]

/-- C4: for every 256-bit account key, encode then decode round-trips (for any
Blake2b-40 checksum collaborator), and decoding any well-formed account string
whose 8-digit base-32 checksum (the low 40 bits of the parsed number) differs
from the Blake2b-40 checksum of the decoded key bytes fails. -/
theorem C4_account_codec_roundtrip (chk : List Nat → Nat) :
    (∀ a : Nat, a < 2 ^ 256 → decode_account chk (encode_account chk a) = some a) ∧
    (∀ ds : List Nat, ds.length = 60 → (∀ d ∈ ds, d < 32) →
      (ds.getD 0 0 = 0 ∨ ds.getD 0 0 = 1) →
      (ds.foldl (fun a d => a * 32 + d) 0) % 2 ^ 40 ≠
        chk (bytesBE ((ds.foldl (fun a d => a * 32 + d) 0) / 2 ^ 40 % 2 ^ 256)) % 2 ^ 40 →
      decode_account chk (['c', 'h', 'r', '_'] ++ ds.map account_encode) = none) := by
  constructor
  · intro a ha
    have hc : chk (bytesBE a) % 2 ^ 40 < 2 ^ 40 := Nat.mod_lt _ (by norm_num)
    set c := chk (bytesBE a) % 2 ^ 40 with hc_def
    set n := a * 2 ^ 40 + c with hn_def
    have hn : n < 2 ^ 296 := by
      calc n = a * 2 ^ 40 + c := rfl
        _ < (a + 1) * 2 ^ 40 := by
            have : (a + 1) * 2 ^ 40 = a * 2 ^ 40 + 2 ^ 40 := by ring
            omega
        _ ≤ 2 ^ 256 * 2 ^ 40 := Nat.mul_le_mul_right _ (by omega)
        _ = 2 ^ 296 := by rw [← pow_add]
    have henc : encode_account chk a = ['c', 'h', 'r', '_'] ++
        (digitsBE n 60).map account_encode := by
      rw [encode_account]
      simp only [← hc_def, ← hn_def, List.reverse_append]
      rw [encode_digits_reverse]
      rfl
    rw [henc, decode_account_wf chk _ (digitsBE_length n 60) (digitsBE_lt n 60)]
    · have hfold : (digitsBE n 60).foldl (fun a d => a * 32 + d) 0 = n := by
        rw [digitsBE_foldl, zero_mul, zero_add, Nat.mod_eq_of_lt]
        calc n < 2 ^ 296 := hn
          _ < 32 ^ 60 := by decide
      rw [hfold]
      have hn2 : n = 2 ^ 40 * a + c := by rw [hn_def]; ring
      have hdivmod : n / 2 ^ 40 = a := by
        rw [hn2, Nat.mul_add_div (by norm_num), Nat.div_eq_of_lt hc, Nat.add_zero]
      have hmod : n % 2 ^ 40 = c := by
        rw [hn2, Nat.mul_add_mod, Nat.mod_eq_of_lt hc]
      rw [hdivmod, Nat.mod_eq_of_lt ha, hmod, if_pos hc_def]
    · have hlt2 : n / 2 ^ 295 < 2 := by
        apply Nat.div_lt_of_lt_mul
        calc n < 2 ^ 296 := hn
          _ = 2 ^ 295 * 2 := by rw [← pow_succ]
      have hd59 : n / 32 ^ 59 % 32 = n / 2 ^ 295 := by
        have h32 : (32 : Nat) ^ 59 = 2 ^ 295 := by decide
        rw [h32, Nat.mod_eq_of_lt (by omega)]
      have hget : (digitsBE n 60).getD 0 0 = n / 32 ^ 59 % 32 := rfl
      rw [hget, hd59]
      omega
  · intro ds h60 hlt hhead hne
    rw [decode_account_wf chk ds h60 hlt hhead, if_neg hne]

theorem C4_account_codec_roundtrip_witness :
    decode_account (fun _ => 0) (encode_account (fun _ => 0) 5) = some 5 ∧
    decode_account (fun _ => 0)
      (['c', 'h', 'r', '_'] ++ (1 :: (List.replicate 58 0 ++ [1])).map account_encode) =
      none :=
  ⟨(C4_account_codec_roundtrip _).1 5 (by norm_num),
   (C4_account_codec_roundtrip _).2 (1 :: (List.replicate 58 0 ++ [1]))
     (by decide) (by decide) (by decide) (by decide)⟩

/-- C5 failing input: the account string chr_ + 51 ones + '0' + 8 ones.  The
symbol '0' is outside the base-32 alphabet, yet decode accepts the string: the
table lookup gives byte value 78 (= 2 * 32 + 14) for every invalid symbol and
the guard compares that, after the unconditional - 0x30, against the tilde
code 126, so it can never fire; the parsed number equals the one for the valid
digit pair '4','g' and the checksum then matches. -/
def c5_input : List Char :=
  ['c', 'h', 'r', '_'] ++ List.replicate 51 '1' ++ '0' :: List.replicate 8 '1'

/-- C5: the claim that decode fails on every string with a symbol outside the
base-32 alphabet in its digit positions is violated: c5_input contains the
invalid symbol '0' in a digit position yet decodes successfully (to key 78,
under the same checksum collaborator on both sides).  The dead invalid-symbol
guard is exhibited by account_decode '0' = 78 ≠ 126. -/
theorem C5_decode_account_accepts_invalid_symbol :
    decode_account (fun _ => 0) c5_input = some 78 ∧
    '0' ∈ c5_input.drop 4 ∧ '0' ∉ account_lookup ∧
    account_decode '0' = 78 ∧ c5_input.length = 64 := by decide

/-! The election state machine (chratos::election in src/unnamed/part_000). -/

/-- Network selector (chratos_networks, declared in common.hpp). -/
inductive networks
  | chratos_test_network
  | chratos_beta_network
  | chratos_live_network
deriving DecidableEq, Repr

/-- Modelled from the spec: the compile-time constant chratos_network is defined
outside src/ (common.hpp); the spec phrases reserved-address filtering and the
peer caps for the live network, so the deployed constant is taken to be the
live network. -/
def chratos_network : networks := networks.chratos_live_network

/-- Modelled from the spec: chratos::not_an_account (secure/common.hpp, outside
src/), the distinguished non-account key seeding last_votes on election
creation. -/
def not_an_account : Nat := 0

/-- Entry of the last_votes map (chratos::vote_info). -/
structure vote_info where
  time : Nat
  sequence : Nat
  hash : Nat
deriving DecidableEq, Repr

/-- Return value of election::vote (chratos::election_vote_result). -/
structure election_vote_result where
  replay : Bool
  processed : Bool
deriving DecidableEq, Repr

/-- Node context read by the election code: the network constant, the online
stake (online_reps.online_stake ()), the ledger weight per account, and config
values.  Wrapping of uint128 arithmetic is made explicit where sums occur. -/
structure node_env where
  net : networks
  online_stake : Nat
  weight : Nat → Nat
  online_weight_quorum : Nat
  online_weight_minimum : Nat
  bootstrap_fraction_numerator : Nat

/-- chratos::node::delta: (online_stake () / 100) * online_weight_quorum, in
uint128 arithmetic (division happens first, exactly as in the source). -/
def node_delta (env : node_env) : Nat :=
  env.online_stake / 100 * env.online_weight_quorum % 2 ^ 128

/-- State of one election.  Blocks are identified by their hashes: the C++
candidate map is keyed by hash and block equality coincides with key equality
there. -/
structure election_state where
  root : Nat
  last_votes : List (Nat × vote_info)
  blocks : List Nat
  winner : Nat
  status_tally : Nat
  last_tally : List (Nat × Nat)
  confirmed : Bool
  aborted : Bool
deriving DecidableEq, Repr

/-- chratos::election::election: the constructor seeds
last_votes[not_an_account] = (now, 0, hash of the first block) and the first
candidate block. -/
def election_create (block_root block_hash now : Nat) : election_state :=
  { root := block_root
    last_votes := [(not_an_account, ⟨now, 0, block_hash⟩)]
    blocks := [block_hash]
    winner := block_hash
    status_tally := 0
    last_tally := []
    confirmed := false
    aborted := false }

/-- Grouping loop of election::tally: block_weights[hash] += ledger weight of
the voter, uint128 addition.  The fold order determinizes the unordered_map
iteration; only the per-hash sums are observable downstream. -/
def block_weights_of (env : node_env) (lv : List (Nat × vote_info)) : List (Nat × Nat) :=
  lv.foldl
    (fun bw p =>
      assoc_set bw p.2.hash (((assoc_get bw p.2.hash).getD 0 + env.weight p.1) % 2 ^ 128))
    []

/-- Insertion into the weight-descending tally multimap. -/
def tally_insert (w h : Nat) : List (Nat × Nat) → List (Nat × Nat)
  | [] => [(w, h)]
  | (w', h') :: rest =>
    if w > w' then (w, h) :: (w', h') :: rest else (w', h') :: tally_insert w h rest

/-- chratos::election::tally: group the accepted votes by hash, remember the
grouping in last_tally, and keep the entries whose hash is a known candidate
block, sorted by weight descending. -/
def election_tally (env : node_env) (e : election_state) :
    List (Nat × Nat) × election_state :=
  let bw := block_weights_of env e.last_votes
  let result := bw.foldl
    (fun acc p => if p.1 ∈ e.blocks then tally_insert p.2 p.1 acc else acc) []
  (result, { e with last_tally := bw })

/-- chratos::election::have_quorum: top weight strictly above runner-up weight
(0 when there is a single candidate) plus node.delta (), uint128 addition. -/
def have_quorum (env : node_env) (t : List (Nat × Nat)) : Bool :=
  decide ((t.getD 0 (0, 0)).1 > ((t.getD 1 (0, 0)).1 + node_delta env) % 2 ^ 128)

/-- chratos::election::confirm_once: the atomic exchange makes the confirmed
flag monotone; the observer dispatch is an external side effect. -/
def confirm_once (e : election_state) : election_state :=
  if e.confirmed then e else { e with confirmed := true }

/-- chratos::election::confirm_if_quorum: re-tally, record the winning weight,
replace the winner (force-inject path) when the tallied stake reaches
online_weight_minimum and the top candidate differs, then confirm once under
quorum. -/
def confirm_if_quorum (env : node_env) (e : election_state) : election_state :=
  let tr := election_tally env e
  let tally_l := tr.1
  let e1 := tr.2
  let winner_w := (tally_l.getD 0 (0, 0)).1
  let winner_h := (tally_l.getD 0 (0, 0)).2
  let e2 := { e1 with status_tally := winner_w }
  let sum := tally_l.foldl (fun s p => (s + p.1) % 2 ^ 128) 0
  let e3 := if sum ≥ env.online_weight_minimum ∧ winner_h ≠ e2.winner then
      { e2 with winner := winner_h }
    else e2
  if have_quorum env tally_l then confirm_once e3 else e3

/-- Cooldown ladder of election::vote, keyed on the voter's share of the online
stake. -/
def vote_cooldown (env : node_env) (rep : Nat) : Nat :=
  if env.weight rep < env.online_stake / 100 then 15
  else if env.weight rep < env.online_stake / 20 then 5
  else 1

/-- chratos::election::vote.  The outer should_process declared at the top of
the C++ function is shadowed by an inner declaration inside the weight-gate
block, so the returned processed flag is always the (never assigned) outer
false; the inner flag still controls the store and the re-tally.  The cooldown
comparison last_vote.time <= now () - cooldown is written underflow-free as
time + cooldown <= now. -/
def election_vote (env : node_env) (e : election_state)
    (rep sequence block_hash now : Nat) : election_state × election_vote_result :=
  let supply := env.online_stake
  let weight := env.weight rep
  let should_process0 := false
  if env.net = networks.chratos_test_network ∨ weight > supply / 1000 then
    let cooldown := vote_cooldown env rep
    let rs :=
      match assoc_get e.last_votes rep with
      | none => (false, true)
      | some last_vote =>
        if last_vote.sequence < sequence ∨
            (last_vote.sequence = sequence ∧ last_vote.hash < block_hash) then
          (false, decide (last_vote.time + cooldown ≤ now))
        else (true, false)
    if rs.2 then
      let e1 := { e with last_votes := assoc_set e.last_votes rep ⟨now, sequence, block_hash⟩ }
      let e2 := if e1.confirmed then e1 else confirm_if_quorum env e1
      (e2, ⟨rs.1, should_process0⟩)
    else (e, ⟨rs.1, should_process0⟩)
  else (e, ⟨false, should_process0⟩)

/-- chratos::election::publish: with 10 or more candidates a block whose
last_tally weight is below a tenth of the online stake is dropped; otherwise
the candidate set is extended (map insert: no-op on an existing hash). -/
def election_publish (env : node_env) (e : election_state) (block_hash : Nat) :
    Bool × election_state :=
  let result := e.blocks.length ≥ 10 ∧
    (assoc_get e.last_tally block_hash).getD 0 < env.online_stake / 10
  if result then (true, e)
  else
    (false,
      { e with blocks := if block_hash ∈ e.blocks then e.blocks else e.blocks ++ [block_hash] })

/-! Characterization of election::vote, case by case. -/

/-- Mirror of the condition under which election::vote stores the offered vote
(the inner should_process). -/
def vote_stored (env : node_env) (e : election_state)
    (rep seq h now : Nat) : Bool :=
  (decide (env.net = networks.chratos_test_network) ||
    decide (env.weight rep > env.online_stake / 1000)) &&
  (match assoc_get e.last_votes rep with
   | none => true
   | some lv =>
     (decide (lv.sequence < seq) ||
       (decide (lv.sequence = seq) && decide (lv.hash < h))) &&
     decide (lv.time + vote_cooldown env rep ≤ now))

theorem election_vote_nogate (env : node_env) (e : election_state) (rep seq h now : Nat)
    (hg : ¬ (env.net = networks.chratos_test_network ∨
      env.weight rep > env.online_stake / 1000)) :
    election_vote env e rep seq h now = (e, ⟨false, false⟩) := by
  unfold election_vote
  rw [if_neg hg]

theorem vote_stored_nogate (env : node_env) (e : election_state) (rep seq h now : Nat)
    (hg : ¬ (env.net = networks.chratos_test_network ∨
      env.weight rep > env.online_stake / 1000)) :
    vote_stored env e rep seq h now = false := by
  push_neg at hg
  unfold vote_stored
  simp [hg.1, hg.2]

theorem election_vote_new (env : node_env) (e : election_state) (rep seq h now : Nat)
    (hg : env.net = networks.chratos_test_network ∨
      env.weight rep > env.online_stake / 1000)
    (hlv : assoc_get e.last_votes rep = none) :
    election_vote env e rep seq h now =
      ((if e.confirmed then
          { e with last_votes := assoc_set e.last_votes rep ⟨now, seq, h⟩ }
        else confirm_if_quorum env
          { e with last_votes := assoc_set e.last_votes rep ⟨now, seq, h⟩ }),
       ⟨false, false⟩) := by
  unfold election_vote
  rw [if_pos hg]
  simp only [hlv]
  simp

theorem vote_stored_new (env : node_env) (e : election_state) (rep seq h now : Nat)
    (hg : env.net = networks.chratos_test_network ∨
      env.weight rep > env.online_stake / 1000)
    (hlv : assoc_get e.last_votes rep = none) :
    vote_stored env e rep seq h now = true := by
  unfold vote_stored
  rcases hg with hge | hge <;> simp [hlv, hge]

theorem election_vote_supersede (env : node_env) (e : election_state)
    (rep seq h now : Nat) (lv : vote_info)
    (hg : env.net = networks.chratos_test_network ∨
      env.weight rep > env.online_stake / 1000)
    (hlv : assoc_get e.last_votes rep = some lv)
    (hlex : lv.sequence < seq ∨ (lv.sequence = seq ∧ lv.hash < h))
    (hcool : lv.time + vote_cooldown env rep ≤ now) :
    election_vote env e rep seq h now =
      ((if e.confirmed then
          { e with last_votes := assoc_set e.last_votes rep ⟨now, seq, h⟩ }
        else confirm_if_quorum env
          { e with last_votes := assoc_set e.last_votes rep ⟨now, seq, h⟩ }),
       ⟨false, false⟩) := by
  unfold election_vote
  rw [if_pos hg]
  simp only [hlv]
  rw [if_pos hlex]
  simp [hcool]

theorem vote_stored_supersede (env : node_env) (e : election_state)
    (rep seq h now : Nat) (lv : vote_info)
    (hg : env.net = networks.chratos_test_network ∨
      env.weight rep > env.online_stake / 1000)
    (hlv : assoc_get e.last_votes rep = some lv)
    (hlex : lv.sequence < seq ∨ (lv.sequence = seq ∧ lv.hash < h))
    (hcool : lv.time + vote_cooldown env rep ≤ now) :
    vote_stored env e rep seq h now = true := by
  have hlexb : (decide (lv.sequence < seq) ||
      (decide (lv.sequence = seq) && decide (lv.hash < h))) = true := by
    rcases hlex with hl | ⟨h1, h2⟩
    · simp [hl]
    · simp [h1, h2]
  unfold vote_stored
  rcases hg with hge | hge <;> simp [hlv, hge, hlexb, hcool]

theorem election_vote_young (env : node_env) (e : election_state)
    (rep seq h now : Nat) (lv : vote_info)
    (hg : env.net = networks.chratos_test_network ∨
      env.weight rep > env.online_stake / 1000)
    (hlv : assoc_get e.last_votes rep = some lv)
    (hlex : lv.sequence < seq ∨ (lv.sequence = seq ∧ lv.hash < h))
    (hcool : ¬ (lv.time + vote_cooldown env rep ≤ now)) :
    election_vote env e rep seq h now = (e, ⟨false, false⟩) := by
  unfold election_vote
  rw [if_pos hg]
  simp only [hlv]
  rw [if_pos hlex]
  simp [hcool]

theorem vote_stored_young (env : node_env) (e : election_state)
    (rep seq h now : Nat) (lv : vote_info)
    (hlv : assoc_get e.last_votes rep = some lv)
    (hcool : ¬ (lv.time + vote_cooldown env rep ≤ now)) :
    vote_stored env e rep seq h now = false := by
  unfold vote_stored
  simp [hlv, hcool]

theorem election_vote_replay_case (env : node_env) (e : election_state)
    (rep seq h now : Nat) (lv : vote_info)
    (hg : env.net = networks.chratos_test_network ∨
      env.weight rep > env.online_stake / 1000)
    (hlv : assoc_get e.last_votes rep = some lv)
    (hlex : ¬ (lv.sequence < seq ∨ (lv.sequence = seq ∧ lv.hash < h))) :
    election_vote env e rep seq h now = (e, ⟨true, false⟩) := by
  unfold election_vote
  rw [if_pos hg]
  simp only [hlv]
  rw [if_neg hlex]
  simp

theorem vote_stored_replay_case (env : node_env) (e : election_state)
    (rep seq h now : Nat) (lv : vote_info)
    (hlv : assoc_get e.last_votes rep = some lv)
    (hlex : ¬ (lv.sequence < seq ∨ (lv.sequence = seq ∧ lv.hash < h))) :
    vote_stored env e rep seq h now = false := by
  have hlexb : (decide (lv.sequence < seq) ||
      (decide (lv.sequence = seq) && decide (lv.hash < h))) = false := by
    push_neg at hlex
    rcases hlex with ⟨h1, h2⟩
    by_cases heq : lv.sequence = seq
    · have h3 := h2 heq
      simp [heq]
      omega
    · simp [heq]
      omega
  unfold vote_stored
  simp [hlv, hlexb]

theorem confirm_if_quorum_last_votes (env : node_env) (e : election_state) :
    (confirm_if_quorum env e).last_votes = e.last_votes := by
  simp only [confirm_if_quorum, election_tally, confirm_once]
  repeat' split
  all_goals rfl

theorem confirm_if_quorum_confirmed (env : node_env) (e : election_state) :
    (confirm_if_quorum env e).confirmed =
      (e.confirmed || have_quorum env (election_tally env e).1) := by
  simp only [confirm_if_quorum, election_tally, confirm_once]
  repeat' split
  all_goals simp_all

/-- The net effect of election::vote on last_votes. -/
theorem election_vote_last_votes (env : node_env) (e : election_state)
    (rep seq h now : Nat) :
    (election_vote env e rep seq h now).1.last_votes =
      (if vote_stored env e rep seq h now then
        assoc_set e.last_votes rep ⟨now, seq, h⟩
       else e.last_votes) := by
  by_cases hg : env.net = networks.chratos_test_network ∨
      env.weight rep > env.online_stake / 1000
  · cases hlv : assoc_get e.last_votes rep with
    | none =>
      rw [election_vote_new env e rep seq h now hg hlv,
        vote_stored_new env e rep seq h now hg hlv, if_pos rfl]
      split
      · rfl
      · rw [confirm_if_quorum_last_votes]
    | some lv =>
      by_cases hlex : lv.sequence < seq ∨ (lv.sequence = seq ∧ lv.hash < h)
      · by_cases hcool : lv.time + vote_cooldown env rep ≤ now
        · rw [election_vote_supersede env e rep seq h now lv hg hlv hlex hcool,
            vote_stored_supersede env e rep seq h now lv hg hlv hlex hcool, if_pos rfl]
          split
          · rfl
          · rw [confirm_if_quorum_last_votes]
        · rw [election_vote_young env e rep seq h now lv hg hlv hlex hcool,
            vote_stored_young env e rep seq h now lv hlv hcool]
          simp
      · rw [election_vote_replay_case env e rep seq h now lv hg hlv hlex,
          vote_stored_replay_case env e rep seq h now lv hlv hlex]
        simp
  · rw [election_vote_nogate env e rep seq h now hg,
      vote_stored_nogate env e rep seq h now hg]
    simp

/-- The processed flag returned by election::vote is always false: the C++
returns the outer should_process, which the inner shadowing declaration
prevents from ever being assigned. -/
theorem election_vote_processed_false (env : node_env) (e : election_state)
    (rep seq h now : Nat) :
    (election_vote env e rep seq h now).2.processed = false := by
  by_cases hg : env.net = networks.chratos_test_network ∨
      env.weight rep > env.online_stake / 1000
  · cases hlv : assoc_get e.last_votes rep with
    | none => rw [election_vote_new env e rep seq h now hg hlv]
    | some lv =>
      by_cases hlex : lv.sequence < seq ∨ (lv.sequence = seq ∧ lv.hash < h)
      · by_cases hcool : lv.time + vote_cooldown env rep ≤ now
        · rw [election_vote_supersede env e rep seq h now lv hg hlv hlex hcool]
        · rw [election_vote_young env e rep seq h now lv hg hlv hlex hcool]
      · rw [election_vote_replay_case env e rep seq h now lv hg hlv hlex]
  · rw [election_vote_nogate env e rep seq h now hg]

/-! Vote traces through one election. -/

/-- Offered vote: (representative, sequence, hash) arriving at a time. -/
structure vote_msg where
  rep : Nat
  sequence : Nat
  hash : Nat
  now : Nat
deriving DecidableEq, Repr

/-- Run a list of offered votes through election::vote, collecting the ones the
election stores. -/
def election_run_acc (env : node_env) :
    election_state → List vote_msg → election_state × List (Nat × Nat × Nat)
  | e, [] => (e, [])
  | e, m :: ms =>
    let e' := (election_vote env e m.rep m.sequence m.hash m.now).1
    let r := election_run_acc env e' ms
    if vote_stored env e m.rep m.sequence m.hash m.now then
      (r.1, (m.rep, m.sequence, m.hash) :: r.2)
    else r

/-- Lexicographic order on (sequence, hash) pairs. -/
def lex_le (a b : Nat × Nat) : Prop :=
  a.1 < b.1 ∨ (a.1 = b.1 ∧ a.2 ≤ b.2)

theorem lex_le_refl (a : Nat × Nat) : lex_le a a := Or.inr ⟨rfl, le_refl _⟩

theorem lex_le_trans {a b c : Nat × Nat} (h1 : lex_le a b) (h2 : lex_le b c) :
    lex_le a c := by
  unfold lex_le at *
  omega

theorem election_vote_monotone (env : node_env) (e : election_state)
    (rep seq h now r : Nat) (info : vote_info)
    (hr : assoc_get e.last_votes r = some info) :
    ∃ info', assoc_get (election_vote env e rep seq h now).1.last_votes r = some info' ∧
      lex_le (info.sequence, info.hash) (info'.sequence, info'.hash) := by
  rw [election_vote_last_votes]
  by_cases hs : vote_stored env e rep seq h now = true
  · rw [if_pos hs]
    by_cases hrr : rep = r
    · subst hrr
      refine ⟨⟨now, seq, h⟩, assoc_get_set_same _ _ _, ?_⟩
      unfold vote_stored at hs
      rw [hr] at hs
      simp only [Bool.and_eq_true, Bool.or_eq_true, decide_eq_true_eq] at hs
      unfold lex_le
      rcases hs.2.1 with h1 | ⟨h1, h2⟩
      · exact Or.inl h1
      · exact Or.inr ⟨h1, le_of_lt h2⟩
    · exact ⟨info, by rw [assoc_get_set_ne _ _ _ _ hrr]; exact hr, lex_le_refl _⟩
  · rw [if_neg hs]
    exact ⟨info, hr, lex_le_refl _⟩

theorem election_run_acc_fst (env : node_env) (e : election_state) (m : vote_msg)
    (ms : List vote_msg) :
    (election_run_acc env e (m :: ms)).1 =
      (election_run_acc env (election_vote env e m.rep m.sequence m.hash m.now).1 ms).1 := by
  simp only [election_run_acc]
  split <;> rfl

theorem election_run_monotone (env : node_env) (ms : List vote_msg) :
    ∀ (e : election_state) (r : Nat) (info : vote_info),
      assoc_get e.last_votes r = some info →
      ∃ info', assoc_get (election_run_acc env e ms).1.last_votes r = some info' ∧
        lex_le (info.sequence, info.hash) (info'.sequence, info'.hash) := by
  induction ms with
  | nil => exact fun e r info hr => ⟨info, hr, lex_le_refl _⟩
  | cons m ms ih =>
    intro e r info hr
    obtain ⟨i1, hi1, hl1⟩ :=
      election_vote_monotone env e m.rep m.sequence m.hash m.now r info hr
    obtain ⟨i2, hi2, hl2⟩ := ih _ r i1 hi1
    rw [election_run_acc_fst]
    exact ⟨i2, hi2, lex_le_trans hl1 hl2⟩

theorem election_run_acc_dominated (env : node_env) (ms : List vote_msg) :
    ∀ (e : election_state) (r s h : Nat),
      (r, s, h) ∈ (election_run_acc env e ms).2 →
      ∃ info, assoc_get (election_run_acc env e ms).1.last_votes r = some info ∧
        lex_le (s, h) (info.sequence, info.hash) := by
  induction ms with
  | nil => intro e r s h hmem; simp [election_run_acc] at hmem
  | cons m ms ih =>
    intro e r s h hmem
    rw [election_run_acc_fst]
    by_cases hs : vote_stored env e m.rep m.sequence m.hash m.now = true
    · have hsnd : (election_run_acc env e (m :: ms)).2 =
          (m.rep, m.sequence, m.hash) ::
            (election_run_acc env
              (election_vote env e m.rep m.sequence m.hash m.now).1 ms).2 := by
        simp only [election_run_acc]
        rw [if_pos hs]
      rw [hsnd] at hmem
      rcases List.mem_cons.mp hmem with heq | hmem'
      · injection heq with h1 h23
        injection h23 with h2 h3
        subst h1; subst h2; subst h3
        have hlv' : assoc_get
            (election_vote env e m.rep m.sequence m.hash m.now).1.last_votes m.rep =
            some ⟨m.now, m.sequence, m.hash⟩ := by
          rw [election_vote_last_votes, if_pos hs]
          exact assoc_get_set_same _ _ _
        obtain ⟨i2, hi2, hl2⟩ := election_run_monotone env ms _ m.rep _ hlv'
        exact ⟨i2, hi2, hl2⟩
      · exact ih _ r s h hmem'
    · have hsnd : (election_run_acc env e (m :: ms)).2 =
          (election_run_acc env
            (election_vote env e m.rep m.sequence m.hash m.now).1 ms).2 := by
        simp only [election_run_acc]
        rw [if_neg hs]
      rw [hsnd] at hmem
      exact ih _ r s h hmem

/-! Claim theorems for the election subsystem. -/

/-- Follows the spec's words: delta = online_stake * online_weight_quorum / 100
(multiplication first, division last).  Kept for comparison with node_delta,
which the source computes as (online_stake / 100) * online_weight_quorum. -/
def node_delta_spec (env : node_env) : Nat :=
  env.online_stake * env.online_weight_quorum / 100

/-- C2 counterexample: a reachable election confirms (the code quorum
(online_stake / 100) * online_weight_quorum = 50 is met, 61 > 10 + 50) although
the claimed margin online_stake * online_weight_quorum / 100 = 75 is not
(61 is not greater than 10 + 75).  Stake 150, quorum percent 50, two
candidates, weights 61 and 10. -/
theorem C2_delta_counterexample :
    (let env : node_env := ⟨networks.chratos_live_network, 150,
      (fun a => if a = 1 then 61 else if a = 2 then 10 else 0), 50, 100000, 0⟩
    let e0 := election_create 1 40 0
    let e1 := (election_publish env e0 41).2
    let e2 := (election_vote env e1 2 1 41 10).1
    let e3 := (election_vote env e2 1 1 40 20).1
    let t := (election_tally env e3).1
    e3.confirmed = true ∧ e2.confirmed = false ∧
      (t.getD 0 (0, 0)).1 = 61 ∧ (t.getD 1 (0, 0)).1 = 10 ∧
      ¬ (t.getD 0 (0, 0)).1 > (t.getD 1 (0, 0)).1 + node_delta_spec env) := by
  decide

/-- C2 amended: when an election::vote call flips the confirmed flag, the tally
computed at that moment (on the state holding the just-stored vote) satisfies
tally[0].weight > tally[1].weight + delta with the code's delta
(online_stake / 100) * online_weight_quorum, the runner-up weight taken as 0
with a single candidate; and the confirmed flag is monotone under vote. -/
theorem C2_confirmation_has_code_quorum :
    (∀ (env : node_env) (e : election_state) (rep seq h now : Nat),
      e.confirmed = false →
      (election_vote env e rep seq h now).1.confirmed = true →
      (let t := (election_tally env
        { e with last_votes := assoc_set e.last_votes rep ⟨now, seq, h⟩ }).1
      (t.getD 0 (0, 0)).1 > ((t.getD 1 (0, 0)).1 + node_delta env) % 2 ^ 128)) ∧
    (∀ (env : node_env) (e : election_state) (rep seq h now : Nat),
      e.confirmed = true →
      (election_vote env e rep seq h now).1.confirmed = true) := by
  constructor
  · intro env e rep seq h now hc0 hc1
    by_cases hg : env.net = networks.chratos_test_network ∨
        env.weight rep > env.online_stake / 1000
    · have store_case : ∀ hyp :
          election_vote env e rep seq h now =
            ((if e.confirmed then
                { e with last_votes := assoc_set e.last_votes rep ⟨now, seq, h⟩ }
              else confirm_if_quorum env
                { e with last_votes := assoc_set e.last_votes rep ⟨now, seq, h⟩ }),
             ⟨false, false⟩),
          (let t := (election_tally env
            { e with last_votes := assoc_set e.last_votes rep ⟨now, seq, h⟩ }).1
          (t.getD 0 (0, 0)).1 > ((t.getD 1 (0, 0)).1 + node_delta env) % 2 ^ 128) := by
        intro hyp
        rw [hyp] at hc1
        simp only [hc0, if_false, Bool.false_eq_true] at hc1
        rw [confirm_if_quorum_confirmed] at hc1
        simp only [hc0, Bool.false_or] at hc1
        unfold have_quorum at hc1
        simpa using hc1
      cases hlv : assoc_get e.last_votes rep with
      | none => exact store_case (election_vote_new env e rep seq h now hg hlv)
      | some lv =>
        by_cases hlex : lv.sequence < seq ∨ (lv.sequence = seq ∧ lv.hash < h)
        · by_cases hcool : lv.time + vote_cooldown env rep ≤ now
          · exact store_case
              (election_vote_supersede env e rep seq h now lv hg hlv hlex hcool)
          · rw [election_vote_young env e rep seq h now lv hg hlv hlex hcool] at hc1
            rw [hc0] at hc1
            exact absurd hc1 (by simp)
        · rw [election_vote_replay_case env e rep seq h now lv hg hlv hlex] at hc1
          rw [hc0] at hc1
          exact absurd hc1 (by simp)
    · rw [election_vote_nogate env e rep seq h now hg] at hc1
      rw [hc0] at hc1
      exact absurd hc1 (by simp)
  · intro env e rep seq h now hc
    by_cases hg : env.net = networks.chratos_test_network ∨
        env.weight rep > env.online_stake / 1000
    · cases hlv : assoc_get e.last_votes rep with
      | none =>
        rw [election_vote_new env e rep seq h now hg hlv]
        simp [hc]
      | some lv =>
        by_cases hlex : lv.sequence < seq ∨ (lv.sequence = seq ∧ lv.hash < h)
        · by_cases hcool : lv.time + vote_cooldown env rep ≤ now
          · rw [election_vote_supersede env e rep seq h now lv hg hlv hlex hcool]
            simp [hc]
          · rw [election_vote_young env e rep seq h now lv hg hlv hlex hcool]
            exact hc
        · rw [election_vote_replay_case env e rep seq h now lv hg hlv hlex]
          exact hc
    · rw [election_vote_nogate env e rep seq h now hg]
      exact hc

theorem C2_confirmation_has_code_quorum_witness :
    (let env : node_env := ⟨networks.chratos_live_network, 150,
      (fun a => if a = 1 then 61 else if a = 2 then 10 else 0), 50, 100000, 0⟩
    let e2 := (election_vote env
      ((election_publish env (election_create 1 40 0) 41).2) 2 1 41 10).1
    let t := (election_tally env
      { e2 with last_votes := assoc_set e2.last_votes 1 ⟨20, 1, 40⟩ }).1
    (t.getD 0 (0, 0)).1 > ((t.getD 1 (0, 0)).1 + node_delta env) % 2 ^ 128) :=
  C2_confirmation_has_code_quorum.1 _ _ 1 1 40 20 (by decide) (by decide)

/-- C3 counterexample: a representative whose ledger weight has dropped to the
0.1 % admission gate offers a vote with (sequence, hash) equal to its stored
pair; the claim demands a replay tag, but election::vote skips the weight-gated
block entirely and returns (replay = false, processed = false).  The stored
pair was accepted earlier while the representative held weight 100 of 1000. -/
theorem C3_replay_tag_counterexample :
    (let env_hi : node_env := ⟨networks.chratos_live_network, 1000,
      (fun a => if a = 7 then 100 else 0), 50, 100000, 0⟩
    let env_lo : node_env := ⟨networks.chratos_live_network, 1000,
      (fun _ => 0), 50, 100000, 0⟩
    let e1 := (election_vote env_hi (election_create 1 5 0) 7 1 5 10).1
    assoc_get e1.last_votes 7 = some ⟨10, 1, 5⟩ ∧
      (election_vote env_lo e1 7 1 5 20).2.replay = false ∧
      (election_vote env_lo e1 7 1 5 20).1 = e1) := by
  decide

/-- C3 amended: for a representative that passes the admission gate (test
network, or weight above online_stake / 1000): an offered (sequence, hash)
replaces the stored pair iff it is lexicographically greater and the stored
vote is older than the weight-tier cooldown; a lexicographically greater offer
against a younger stored vote, and any offer equal or smaller, leave the
election unchanged, the latter tagged replay; and along any vote trace every
stored last_votes entry dominates (lexicographically, hence also in sequence
number) every vote accepted from that representative. -/
theorem C3_last_votes_lex_max :
    (∀ (env : node_env) (e : election_state) (rep seq h now : Nat) (lv : vote_info),
      (env.net = networks.chratos_test_network ∨
        env.weight rep > env.online_stake / 1000) →
      assoc_get e.last_votes rep = some lv →
      (((lv.sequence < seq ∨ (lv.sequence = seq ∧ lv.hash < h)) ∧
          lv.time + vote_cooldown env rep ≤ now) →
        (election_vote env e rep seq h now).1.last_votes =
          assoc_set e.last_votes rep ⟨now, seq, h⟩) ∧
      ((¬ ((lv.sequence < seq ∨ (lv.sequence = seq ∧ lv.hash < h)) ∧
          lv.time + vote_cooldown env rep ≤ now)) →
        (election_vote env e rep seq h now).1 = e) ∧
      ((election_vote env e rep seq h now).2.replay = true ↔
        ¬ (lv.sequence < seq ∨ (lv.sequence = seq ∧ lv.hash < h)))) ∧
    (∀ (env : node_env) (e : election_state) (ms : List vote_msg) (r s h : Nat),
      (r, s, h) ∈ (election_run_acc env e ms).2 →
      ∃ info, assoc_get (election_run_acc env e ms).1.last_votes r = some info ∧
        lex_le (s, h) (info.sequence, info.hash)) := by
  constructor
  · intro env e rep seq h now lv hg hlv
    refine ⟨?_, ?_, ?_⟩
    · rintro ⟨hlex, hcool⟩
      rw [election_vote_last_votes,
        if_pos (vote_stored_supersede env e rep seq h now lv hg hlv hlex hcool)]
    · intro hnot
      by_cases hlex : lv.sequence < seq ∨ (lv.sequence = seq ∧ lv.hash < h)
      · have hcool : ¬ (lv.time + vote_cooldown env rep ≤ now) := fun hc =>
          hnot ⟨hlex, hc⟩
        rw [election_vote_young env e rep seq h now lv hg hlv hlex hcool]
      · rw [election_vote_replay_case env e rep seq h now lv hg hlv hlex]
    · by_cases hlex : lv.sequence < seq ∨ (lv.sequence = seq ∧ lv.hash < h)
      · constructor
        · intro hrep
          by_cases hcool : lv.time + vote_cooldown env rep ≤ now
          · rw [election_vote_supersede env e rep seq h now lv hg hlv hlex hcool] at hrep
            simp at hrep
          · rw [election_vote_young env e rep seq h now lv hg hlv hlex hcool] at hrep
            simp at hrep
        · intro hn
          exact absurd hlex hn
      · constructor
        · intro _
          exact hlex
        · intro _
          rw [election_vote_replay_case env e rep seq h now lv hg hlv hlex]
  · intro env e ms r s h hmem
    exact election_run_acc_dominated env ms e r s h hmem

theorem C3_last_votes_lex_max_witness :
    (let env : node_env := ⟨networks.chratos_test_network, 1000,
      (fun _ => 0), 50, 100000, 0⟩
    let e : election_state := ⟨1, [(3, ⟨0, 1, 5⟩)], [5], 5, 0, [], false, false⟩
    (election_vote env e 3 2 9 100).1.last_votes =
        assoc_set e.last_votes 3 ⟨100, 2, 9⟩ ∧
      ((election_vote env e 3 1 5 100).2.replay = true ↔
        ¬ ((1 : Nat) < 1 ∨ ((1 : Nat) = 1 ∧ (5 : Nat) < 5))) ∧
      (∃ info, assoc_get (election_run_acc env e [⟨3, 2, 9, 100⟩]).1.last_votes 3 =
          some info ∧ lex_le (2, 9) (info.sequence, info.hash))) :=
  ⟨(C3_last_votes_lex_max.1 _ _ 3 2 9 100 ⟨0, 1, 5⟩ (by decide) (by decide)).1
      (by constructor <;> decide),
   (C3_last_votes_lex_max.1 _ _ 3 1 5 100 ⟨0, 1, 5⟩ (by decide) (by decide)).2.2,
   C3_last_votes_lex_max.2 _ _ [⟨3, 2, 9, 100⟩] 3 2 9 (by decide)⟩

/-- C10: a vote passing the admission gate with a lexicographically greater
(sequence, hash) whose stored counterpart is still younger than the cooldown is
silently dropped: (replay = false, processed = false), state untouched; and on
a non-test network a vote from a representative holding no more than 0.1 % of
the online stake (weight * 1000 <= online_stake) likewise returns
(false, false) without state change. -/
theorem C10_silent_drop :
    (∀ (env : node_env) (e : election_state) (rep seq h now : Nat) (lv : vote_info),
      (env.net = networks.chratos_test_network ∨
        env.weight rep > env.online_stake / 1000) →
      assoc_get e.last_votes rep = some lv →
      (lv.sequence < seq ∨ (lv.sequence = seq ∧ lv.hash < h)) →
      now < lv.time + vote_cooldown env rep →
      election_vote env e rep seq h now = (e, ⟨false, false⟩)) ∧
    (∀ (env : node_env) (e : election_state) (rep seq h now : Nat),
      env.net ≠ networks.chratos_test_network →
      env.weight rep * 1000 ≤ env.online_stake →
      election_vote env e rep seq h now = (e, ⟨false, false⟩)) := by
  constructor
  · intro env e rep seq h now lv hg hlv hlex hyoung
    exact election_vote_young env e rep seq h now lv hg hlv hlex (by omega)
  · intro env e rep seq h now hnet hw
    apply election_vote_nogate
    rintro (hg | hg)
    · exact hnet hg
    · have : env.weight rep ≤ env.online_stake / 1000 :=
        (Nat.le_div_iff_mul_le (by norm_num)).mpr hw
      omega

theorem C10_silent_drop_witness :
    (let env : node_env := ⟨networks.chratos_test_network, 1000,
      (fun _ => 0), 50, 100000, 0⟩
    let env2 : node_env := ⟨networks.chratos_live_network, 1000,
      (fun _ => 0), 50, 100000, 0⟩
    let e : election_state := ⟨1, [(3, ⟨100, 1, 5⟩)], [5], 5, 0, [], false, false⟩
    election_vote env e 3 2 9 105 = (e, ⟨false, false⟩) ∧
      election_vote env2 e 3 2 9 500 = (e, ⟨false, false⟩)) :=
  ⟨C10_silent_drop.1 _ _ 3 2 9 105 ⟨100, 1, 5⟩ (by decide) (by decide) (by decide)
      (by decide),
   C10_silent_drop.2 _ _ 3 2 9 500 (by decide) (by decide)⟩

/-! Active elections container and the vote processor
(chratos::active_transactions / chratos::vote_processor). -/

/-- Entry of a vote's block bundle (boost::variant of block pointer and
block_hash); which () is true on the hash alternative. -/
inductive vote_block
  | block (root hash : Nat)
  | hash (h : Nat)
deriving DecidableEq, Repr

/-- chratos::vote: voting account, monotone sequence number, block bundle.
Signature validation is the external Ed25519 collaborator. -/
structure vote where
  account : Nat
  sequence : Nat
  blocks : List vote_block
deriving DecidableEq, Repr

/-- chratos::active_transactions: elections in the primary root index; the
secondary successors index maps a candidate block hash to the root of its
election (the C++ stores the shared election pointer, identified here by the
root that keys it in the primary index). -/
structure active_state where
  roots : List (Nat × election_state)
  successors : List (Nat × Nat)
deriving DecidableEq, Repr

/-- chratos::active_transactions::start: create an election for the primary
block's root when none exists, registering the block in both indexes; returns
true when an election already exists. -/
def active_start (st : active_state) (block_root block_hash now : Nat) :
    Bool × active_state :=
  match assoc_get st.roots block_root with
  | some _ => (true, st)
  | none =>
    (false,
      { roots := st.roots ++ [(block_root, election_create block_root block_hash now)]
        successors := st.successors ++ [(block_hash, block_root)] })

/-- chratos::active_transactions::vote: route every bundle entry to an election
(by exact hash via successors for hash entries, by root for full blocks),
apply election::vote, and accumulate the replay and processed flags over the
default-initialized per-entry result.  Returns (replay, processed, state). -/
def active_vote (env : node_env) (st : active_state) (v : vote) (now : Nat) :
    Bool × Bool × active_state :=
  v.blocks.foldl
    (fun acc vb =>
      let rs :=
        match vb with
        | vote_block.hash h =>
          match assoc_get acc.2.2.successors h with
          | some root =>
            match assoc_get acc.2.2.roots root with
            | some el =>
              let r := election_vote env el v.account v.sequence h now
              (r.2, { acc.2.2 with roots := assoc_set acc.2.2.roots root r.1 })
            | none => ((⟨false, false⟩ : election_vote_result), acc.2.2)
          | none => ((⟨false, false⟩ : election_vote_result), acc.2.2)
        | vote_block.block root h =>
          match assoc_get acc.2.2.roots root with
          | some el =>
            let r := election_vote env el v.account v.sequence h now
            (r.2, { acc.2.2 with roots := assoc_set acc.2.2.roots root r.1 })
          | none => ((⟨false, false⟩ : election_vote_result), acc.2.2)
      (acc.1 || rs.1.replay, acc.2.1 || rs.1.processed, rs.2))
    (false, false, st)

/-- Outcome classification of the vote processor (chratos::vote_code). -/
inductive vote_code
  | invalid
  | replay
  | vote
deriving DecidableEq, Repr

/-- Modelled from the spec: chratos::block_store::vote_max lives in
blockstore.cpp, outside src/.  The store keeps votes by account (latest
sequence); vote_max returns the vote with the greatest sequence among the
stored and the offered one, storing the offered vote when it supersedes.  Only
the sequence of the returned vote is consumed here. -/
def vote_max (store : List (Nat × Nat)) (account sequence : Nat) :
    Nat × List (Nat × Nat) :=
  match assoc_get store account with
  | none => (sequence, assoc_set store account sequence)
  | some s =>
    if s < sequence then (sequence, assoc_set store account sequence) else (s, store)

/-- State threaded through vote_blocking: the per-account vote store and the
active elections container. -/
structure vote_processor_state where
  vote_store : List (Nat × Nat)
  active : active_state
deriving DecidableEq, Repr

/-- chratos::vote_processor::vote_blocking.  vote::validate () (Ed25519, outside
src/) is the abstract error-flag collaborator validate_fails.  After a
successful validation the source always calls store.vote_max and
active.vote, then classifies: result = vote when active.vote reported no
replay or when the stored maximum sequence strictly exceeds the offered one,
result = replay otherwise.  The far-behind confirm_ack reply, observer
notification and stat counters are external side effects. -/
def vote_blocking (env : node_env) (validate_fails : vote → Bool)
    (st : vote_processor_state) (v : vote) (now : Nat) :
    vote_code × vote_processor_state :=
  if validate_fails v then (vote_code.invalid, st)
  else
    let mv := vote_max st.vote_store v.account v.sequence
    let av := active_vote env st.active v now
    let result := if !av.1 || mv.1 > v.sequence then vote_code.vote else vote_code.replay
    (result, ⟨mv.2, av.2.2⟩)

/-- C1 counterexample: two concrete runs violating the claimed classification.
With no active election for the vote's hash, no election accepts the vote
(processed stays false), yet the result is vote, not the claimed replay; and a
vote that does not supersede the stored maximum (stored sequence 100 against
offered 1) also yields vote - the opposite of the claimed replay - because the
source tests max_vote.sequence > sequence as a reason FOR vote. -/
theorem C1_vote_blocking_counterexample :
    (let env : node_env := ⟨networks.chratos_live_network, 1000,
      (fun _ => 0), 50, 100000, 0⟩
    let vf : vote → Bool := fun _ => false
    let v0 : vote := ⟨1, 1, [vote_block.hash 5]⟩
    let st0 : vote_processor_state := ⟨[], ⟨[], []⟩⟩
    let st1 : vote_processor_state := ⟨[(1, 100)], ⟨[], []⟩⟩
    vf v0 = false ∧
      (active_vote env st0.active v0 0).2.1 = false ∧
      (active_vote env st0.active v0 0).2.2 = st0.active ∧
      (vote_max st0.vote_store v0.account v0.sequence).1 = v0.sequence ∧
      (vote_blocking env vf st0 v0 0).1 = vote_code.vote ∧
      (vote_max st1.vote_store v0.account v0.sequence).1 = 100 ∧
      (vote_blocking env vf st1 v0 0).1 = vote_code.vote) := by
  decide

/-- C1 amended: vote_blocking returns invalid exactly when validation fails;
otherwise the vote is always handed to active elections (and the vote-max
store updated), and the result is vote iff no election tagged the vote as
replay or the stored maximum sequence strictly exceeds the offered sequence;
replay iff some election tagged it replay and the stored maximum does not
strictly exceed the offered sequence. -/
theorem C1_vote_blocking_classification (env : node_env)
    (validate_fails : vote → Bool) (st : vote_processor_state) (v : vote)
    (now : Nat) :
    ((vote_blocking env validate_fails st v now).1 = vote_code.invalid ↔
      validate_fails v = true) ∧
    ((vote_blocking env validate_fails st v now).1 = vote_code.vote ↔
      (validate_fails v = false ∧
        ((active_vote env st.active v now).1 = false ∨
          (vote_max st.vote_store v.account v.sequence).1 > v.sequence))) ∧
    ((vote_blocking env validate_fails st v now).1 = vote_code.replay ↔
      (validate_fails v = false ∧
        (active_vote env st.active v now).1 = true ∧
        (vote_max st.vote_store v.account v.sequence).1 ≤ v.sequence)) ∧
    (validate_fails v = false →
      (vote_blocking env validate_fails st v now).2 =
        ⟨(vote_max st.vote_store v.account v.sequence).2,
          (active_vote env st.active v now).2.2⟩) := by
  unfold vote_blocking
  cases hv : validate_fails v
  · simp only [Bool.false_eq_true, if_false]
    cases ha : (active_vote env st.active v now).1
    · by_cases hm : (vote_max st.vote_store v.account v.sequence).1 > v.sequence
      · simp [ha, hm]
      · simp [ha, hm]
    · by_cases hm : (vote_max st.vote_store v.account v.sequence).1 > v.sequence
      · simp [ha, hm]
      · simp [ha, hm]
        omega
  · simp

/-! Block processor queues (chratos::block_processor). -/

/-- The fields of a block the processor's queueing logic reads: hash, root and
the proof-of-work nonce handed to work_validate. -/
structure block_info where
  hash : Nat
  root : Nat
  work : Nat
deriving DecidableEq, Repr

/-- chratos::block_processor state: the pending queue of (block, origination)
pairs, the dedup hash set, and the forced queue. -/
structure block_processor_state where
  blocks : List (block_info × Nat)
  blocks_hashes : List Nat
  forced : List block_info
deriving DecidableEq, Repr

def block_processor_empty : block_processor_state := ⟨[], [], []⟩

/-- chratos::block_processor::add: a block whose proof-of-work does not
validate is dropped (logged, and in debug builds the assert aborts); otherwise
it is enqueued unless its hash is already queued.  work_validate is the
external collaborator returning the error flag. -/
def block_processor_add (work_validate_fails : Nat → Nat → Bool)
    (st : block_processor_state) (b : block_info) (origination : Nat) :
    block_processor_state :=
  if ¬ work_validate_fails b.root b.work then
    if b.hash ∈ st.blocks_hashes then st
    else
      { st with blocks := st.blocks ++ [(b, origination)]
                blocks_hashes := st.blocks_hashes ++ [b.hash] }
  else st

/-- chratos::block_processor::force: push onto the forced queue, no dedup. -/
def block_processor_force (st : block_processor_state) (b : block_info) :
    block_processor_state :=
  { st with forced := st.forced ++ [b] }

/-- Dequeue step of process_receive_many: forced entries first (with the force
flag); a main-queue block leaves with its hash erased from the dedup set. -/
def block_processor_pop (st : block_processor_state) :
    Option (block_info × Bool) × block_processor_state :=
  match st.forced with
  | f :: frest => (some (f, true), { st with forced := frest })
  | [] =>
    match st.blocks with
    | [] => (none, st)
    | (b, _) :: rest =>
      (some (b, false),
        { st with blocks := rest, blocks_hashes := st.blocks_hashes.erase b.hash })

/-- The dedup invariant tying the hash set to the pending queue. -/
def block_processor_inv (st : block_processor_state) : Prop :=
  st.blocks_hashes = st.blocks.map (fun p => p.1.hash) ∧ st.blocks_hashes.Nodup

/-- C6: the pending-queue dedup.  The invariant (the hash set mirrors the
queue and is duplicate-free) holds initially and is preserved by add, force
and the dequeue step; under it every hash occurs at most once in the pending
queue; adding the same block twice in succession enqueues it exactly once;
and force appends unconditionally, with no deduplication. -/
theorem C6_block_processor_dedup :
    block_processor_inv block_processor_empty ∧
    (∀ wv st b t, block_processor_inv st →
      block_processor_inv (block_processor_add wv st b t)) ∧
    (∀ st b, block_processor_inv st →
      block_processor_inv (block_processor_force st b)) ∧
    (∀ st, block_processor_inv st →
      block_processor_inv (block_processor_pop st).2) ∧
    (∀ st, block_processor_inv st → ∀ h,
      (st.blocks.map (fun p => p.1.hash)).count h ≤ 1) ∧
    (∀ wv st b t t', block_processor_inv st →
      wv b.root b.work = false → b.hash ∉ st.blocks_hashes →
      ((block_processor_add wv (block_processor_add wv st b t) b t').blocks.map
        (fun p => p.1.hash)).count b.hash = 1) ∧
    (∀ st b, (block_processor_force st b).forced = st.forced ++ [b]) := by
  refine ⟨⟨rfl, List.nodup_nil⟩, ?_, ?_, ?_, ?_, ?_, ?_⟩
  · intro wv st b t ⟨h1, h2⟩
    unfold block_processor_add
    by_cases hw : wv b.root b.work = true
    · simp only [hw, not_true, if_neg, ite_false]
      exact ⟨h1, h2⟩
    · have hw' : ¬ wv b.root b.work = true := hw
      rw [if_pos hw']
      by_cases hmem : b.hash ∈ st.blocks_hashes
      · rw [if_pos hmem]
        exact ⟨h1, h2⟩
      · rw [if_neg hmem]
        constructor
        · simp [h1]
        · rw [List.nodup_append]
          exact ⟨h2, List.nodup_singleton _, by
            intro x hx hx'
            simp at hx'
            exact hmem (hx' ▸ hx)⟩
  · intro st b h
    exact h
  · intro st ⟨h1, h2⟩
    unfold block_processor_pop
    cases hf : st.forced with
    | cons f frest => exact ⟨h1, h2⟩
    | nil =>
      cases hb : st.blocks with
      | nil => exact ⟨h1, h2⟩
      | cons p rest =>
        constructor
        · rw [h1, hb]
          simp
        · rw [h1, hb] at h2
          simp only [List.map_cons] at h2
          rw [h1, hb]
          simp only [List.map_cons, List.erase_cons_head]
          exact h2.of_cons
  · intro st ⟨h1, h2⟩ h
    rw [← h1]
    exact List.nodup_iff_count_le_one.mp h2 h
  · intro wv st b t t' ⟨h1, h2⟩ hw hmem
    have hw' : ¬ wv b.root b.work = true := by simp [hw]
    have hadd1 : block_processor_add wv st b t =
        { st with blocks := st.blocks ++ [(b, t)]
                  blocks_hashes := st.blocks_hashes ++ [b.hash] } := by
      unfold block_processor_add
      rw [if_pos hw', if_neg hmem]
    have hmem2 : b.hash ∈ (block_processor_add wv st b t).blocks_hashes := by
      rw [hadd1]
      simp
    have hadd2 : ∀ s2, s2 = block_processor_add wv st b t →
        block_processor_add wv s2 b t' = s2 := by
      intro s2 hs2
      unfold block_processor_add
      rw [if_pos hw', if_pos (hs2 ▸ hmem2)]
    rw [hadd2 _ rfl, hadd1]
    simp only [List.map_append, List.map_cons, List.map_nil]
    rw [List.count_append]
    have hcount0 : (st.blocks.map (fun p => p.1.hash)).count b.hash = 0 := by
      rw [List.count_eq_zero]
      rw [h1] at hmem
      exact hmem
    simp [hcount0]
  · intro st b
    rfl

theorem C6_block_processor_dedup_witness :
    ((block_processor_add (fun _ _ => false)
        (block_processor_add (fun _ _ => false) block_processor_empty ⟨5, 1, 7⟩ 0)
        ⟨5, 1, 7⟩ 1).blocks.map (fun p => p.1.hash)).count 5 = 1 :=
  C6_block_processor_dedup.2.2.2.2.2.1 (fun _ _ => false) block_processor_empty
    ⟨5, 1, 7⟩ 0 1 ⟨rfl, List.nodup_nil⟩ (by decide) (by decide)

/-! SYN cookies (chratos::peer_container::assign_syn_cookie /
validate_syn_cookie). -/

/-- A v6 endpoint, as the address and port. -/
structure endpoint_t where
  ip : Nat
  port : Nat
deriving DecidableEq, Repr

/-- Stored cookie record (chratos::syn_cookie_info). -/
structure syn_cookie_info where
  cookie : Nat
  created_at : Nat
deriving DecidableEq, Repr

/-- The syn-cookie table keyed by endpoint and the per-IP counters. -/
structure syn_cookie_state where
  syn_cookies : List (endpoint_t × syn_cookie_info)
  syn_cookies_per_ip : List (Nat × Nat)
deriving DecidableEq, Repr

/-- Modelled from the spec: max_peers_per_ip = 10, declared in node.hpp outside
src/ (spec section 6 timing parameters). -/
def max_peers_per_ip : Nat := 10

/-- chratos::peer_container::assign_syn_cookie; the freshly generated random
256-bit challenge enters as the query parameter (thread-local RNG
collaborator).  The operator[] default-insert of a zero per-IP counter is
observationally the getD 0 lookup. -/
def assign_syn_cookie (st : syn_cookie_state) (ep : endpoint_t) (query now : Nat) :
    Option Nat × syn_cookie_state :=
  let ip_cookies := (assoc_get st.syn_cookies_per_ip ep.ip).getD 0
  if ip_cookies < max_peers_per_ip then
    match assoc_get st.syn_cookies ep with
    | none =>
      (some query,
        { syn_cookies := assoc_set st.syn_cookies ep ⟨query, now⟩
          syn_cookies_per_ip := assoc_set st.syn_cookies_per_ip ep.ip (ip_cookies + 1) })
    | some _ => (none, st)
  else (none, st)

/-- chratos::peer_container::validate_syn_cookie; Ed25519 validate_message
(numbers.cpp) is the abstract collaborator sig_fails (node_id, message,
signature) returning the error flag.  Returns false (valid) exactly when a
cookie exists and the signature verifies over it; the cookie is then consumed
and the per-IP counter decremented when positive. -/
def validate_syn_cookie (sig_fails : Nat → Nat → Nat → Bool)
    (st : syn_cookie_state) (ep : endpoint_t) (node_id sig : Nat) :
    Bool × syn_cookie_state :=
  match assoc_get st.syn_cookies ep with
  | some info =>
    if ¬ sig_fails node_id info.cookie sig then
      (false,
        { syn_cookies := assoc_del st.syn_cookies ep
          syn_cookies_per_ip :=
            let ip_cookies := (assoc_get st.syn_cookies_per_ip ep.ip).getD 0
            if ip_cookies > 0 then assoc_set st.syn_cookies_per_ip ep.ip (ip_cookies - 1)
            else st.syn_cookies_per_ip })
    else (true, st)
  | none => (true, st)

/-- C7: assign_syn_cookie returns none exactly when the per-IP cap is reached
or a cookie already exists; on success it stores the fresh challenge and
increments the per-IP counter; and a cookie assigned to an endpoint and then
consumed by a verifying signature is removed (the whole table returns to its
prior value) with the per-IP counter back at its value before the assign. -/
theorem C7_syn_cookie_lifecycle :
    (∀ (st : syn_cookie_state) (ep : endpoint_t) (query now : Nat),
      ((assign_syn_cookie st ep query now).1 = none ↔
        (max_peers_per_ip ≤ (assoc_get st.syn_cookies_per_ip ep.ip).getD 0 ∨
          (assoc_get st.syn_cookies ep).isSome = true)) ∧
      ((assoc_get st.syn_cookies_per_ip ep.ip).getD 0 < max_peers_per_ip →
        assoc_get st.syn_cookies ep = none →
        assign_syn_cookie st ep query now =
          (some query,
            { syn_cookies := assoc_set st.syn_cookies ep ⟨query, now⟩
              syn_cookies_per_ip := assoc_set st.syn_cookies_per_ip ep.ip
                ((assoc_get st.syn_cookies_per_ip ep.ip).getD 0 + 1) }))) ∧
    (∀ (sig_fails : Nat → Nat → Nat → Bool) (st : syn_cookie_state)
      (ep : endpoint_t) (query now node_id sig : Nat),
      (assign_syn_cookie st ep query now).1 = some query →
      sig_fails node_id query sig = false →
      validate_syn_cookie sig_fails (assign_syn_cookie st ep query now).2 ep node_id sig =
        (false,
          { syn_cookies := st.syn_cookies
            syn_cookies_per_ip := assoc_set st.syn_cookies_per_ip ep.ip
              ((assoc_get st.syn_cookies_per_ip ep.ip).getD 0) }) ∧
      (assoc_get (validate_syn_cookie sig_fails
          (assign_syn_cookie st ep query now).2 ep node_id sig).2.syn_cookies_per_ip
          ep.ip).getD 0 =
        (assoc_get st.syn_cookies_per_ip ep.ip).getD 0) := by
  constructor
  · intro st ep query now
    constructor
    · unfold assign_syn_cookie
      by_cases hcap : (assoc_get st.syn_cookies_per_ip ep.ip).getD 0 < max_peers_per_ip
      · rw [if_pos hcap]
        cases hc : assoc_get st.syn_cookies ep <;> simp [hc]
        omega
      · rw [if_neg hcap]
        simp
        omega
    · intro hcap hc
      unfold assign_syn_cookie
      rw [if_pos hcap, hc]
  · intro sig_fails st ep query now node_id sig hassign hsig
    have hcap : (assoc_get st.syn_cookies_per_ip ep.ip).getD 0 < max_peers_per_ip := by
      by_contra hcap
      unfold assign_syn_cookie at hassign
      rw [if_neg hcap] at hassign
      simp at hassign
    have hc : assoc_get st.syn_cookies ep = none := by
      cases hc : assoc_get st.syn_cookies ep with
      | none => rfl
      | some i =>
        unfold assign_syn_cookie at hassign
        rw [if_pos hcap, hc] at hassign
        simp at hassign
    have hst' : (assign_syn_cookie st ep query now).2 =
        { syn_cookies := assoc_set st.syn_cookies ep ⟨query, now⟩
          syn_cookies_per_ip := assoc_set st.syn_cookies_per_ip ep.ip
            ((assoc_get st.syn_cookies_per_ip ep.ip).getD 0 + 1) } := by
      unfold assign_syn_cookie
      rw [if_pos hcap, hc]
    rw [hst']
    have hget : assoc_get (assoc_set st.syn_cookies ep
        (⟨query, now⟩ : syn_cookie_info)) ep = some ⟨query, now⟩ :=
      assoc_get_set_same _ _ _
    have hcount : (assoc_get (assoc_set st.syn_cookies_per_ip ep.ip
        ((assoc_get st.syn_cookies_per_ip ep.ip).getD 0 + 1)) ep.ip).getD 0 =
        (assoc_get st.syn_cookies_per_ip ep.ip).getD 0 + 1 := by
      rw [assoc_get_set_same]
      rfl
    have hv : validate_syn_cookie sig_fails
        { syn_cookies := assoc_set st.syn_cookies ep ⟨query, now⟩
          syn_cookies_per_ip := assoc_set st.syn_cookies_per_ip ep.ip
            ((assoc_get st.syn_cookies_per_ip ep.ip).getD 0 + 1) } ep node_id sig =
        (false,
          { syn_cookies := st.syn_cookies
            syn_cookies_per_ip := assoc_set st.syn_cookies_per_ip ep.ip
              ((assoc_get st.syn_cookies_per_ip ep.ip).getD 0) }) := by
      simp only [validate_syn_cookie, hget]
      rw [if_pos (by simp [hsig])]
      have hpos : 0 < (assoc_get (assoc_set st.syn_cookies_per_ip ep.ip
          ((assoc_get st.syn_cookies_per_ip ep.ip).getD 0 + 1)) ep.ip).getD 0 := by
        rw [hcount]
        omega
      rw [if_pos hpos]
      rw [hcount]
      simp only [Nat.add_sub_cancel]
      rw [assoc_del_set _ _ _ hc, assoc_set_set]
    refine ⟨hv, ?_⟩
    rw [hv]
    rw [assoc_get_set_same]
    rfl

theorem C7_syn_cookie_lifecycle_witness :
    validate_syn_cookie (fun _ _ _ => false)
        (assign_syn_cookie ⟨[], []⟩ ⟨4, 4000⟩ 99 0).2 ⟨4, 4000⟩ 8 123 =
      (false, ⟨[], assoc_set [] 4 0⟩) ∧
    (assoc_get (validate_syn_cookie (fun _ _ _ => false)
        (assign_syn_cookie ⟨[], []⟩ ⟨4, 4000⟩ 99 0).2 ⟨4, 4000⟩ 8 123).2.syn_cookies_per_ip
        4).getD 0 = 0 :=
  C7_syn_cookie_lifecycle.2 (fun _ _ _ => false) ⟨[], []⟩ ⟨4, 4000⟩ 99 0 8 123
    (by decide) (by decide)

/-! Peer container insertion (chratos::peer_container::insert). -/

/-- Peer record fields read by insert (chratos::peer_information). -/
structure peer_information where
  endpoint : endpoint_t
  network_version : Nat
  last_contact : Nat
deriving DecidableEq, Repr

structure peer_container_state where
  peers : List peer_information
  legacy_peers : Nat
deriving DecidableEq, Repr

/-- Modelled from the spec: the protocol constants consumed by insert are
declared in headers outside src/ (common.hpp / node.hpp); max_peers_per_ip
itself is the spec-pinned constant 10 defined above, the remaining ones stay
abstract. -/
structure peer_consts where
  node_id_version : Nat
  protocol_version_min : Nat
  max_legacy_peers : Nat
  max_legacy_peers_per_ip : Nat

/-- Number of stored peers whose endpoint carries the given IP. -/
def ip_count (st : peer_container_state) (ip : Nat) : Nat :=
  (st.peers.filter (fun p => p.endpoint.ip == ip)).length

/-- chratos::peer_container::insert.  not_a_peer (reserved-range and
self-endpoint filtering) is an abstract predicate; net is the compile-time
network constant.  A known endpoint only gets a last_contact refresh, with
result true; a new legacy peer increments the legacy counter before the per-IP
checks (a later per-IP rejection does not undo the increment, as in the
source); the per-IP caps apply only off the test network. -/
def peer_insert (C : peer_consts) (net : networks) (nap : endpoint_t → Bool)
    (st : peer_container_state) (ep : endpoint_t) (version now : Nat) :
    Bool × peer_container_state :=
  let is_legacy := version < C.node_id_version
  if nap ep then (true, st)
  else if version ≥ C.protocol_version_min then
    if (st.peers.find? (fun p => p.endpoint == ep)).isSome then
      (true, { st with peers := st.peers.map (fun p =>
        if p.endpoint == ep then { p with last_contact := now } else p) })
    else
      let r1 :=
        if is_legacy then
          if st.legacy_peers < C.max_legacy_peers then (false, st.legacy_peers + 1)
          else (true, st.legacy_peers)
        else (false, st.legacy_peers)
      let r2 :=
        if ¬ r1.1 = true ∧ net ≠ networks.chratos_test_network then
          let ip_peers := (st.peers.filter (fun p => p.endpoint.ip == ep.ip)).length
          let legacy_ip_peers := (st.peers.filter (fun p =>
            p.endpoint.ip == ep.ip && decide (p.network_version < C.node_id_version))).length
          if ip_peers ≥ max_peers_per_ip ∨
              (is_legacy ∧ legacy_ip_peers ≥ C.max_legacy_peers_per_ip) then true
          else r1.1
        else r1.1
      if ¬ r2 = true then
        (false, { peers := st.peers ++ [⟨ep, version, now⟩], legacy_peers := r1.2 })
      else (r2, { st with legacy_peers := r1.2 })
  else (false, st)

/-- Feeding a list of (endpoint, version, time) contacts through insert. -/
def peer_run (C : peer_consts) (net : networks) (nap : endpoint_t → Bool) :
    peer_container_state → List (endpoint_t × Nat × Nat) → peer_container_state
  | st, [] => st
  | st, op :: ops =>
    peer_run C net nap (peer_insert C net nap st op.1 op.2.1 op.2.2).2 ops

theorem filter_ip_map_refresh (l : List peer_information)
    (f : peer_information → peer_information)
    (hf : ∀ p, (f p).endpoint = p.endpoint) (ip : Nat) :
    ((l.map f).filter (fun p => p.endpoint.ip == ip)).length =
    (l.filter (fun p => p.endpoint.ip == ip)).length := by
  induction l with
  | nil => rfl
  | cons hd tl ih =>
    simp only [List.map_cons, List.filter_cons, hf]
    cases hq : (hd.endpoint.ip == ip) <;> simp [hq, ih]

theorem ip_count_append_bound (st : peer_container_state) (ep : endpoint_t)
    (version now leg ip : Nat)
    (hb : ∀ ip, ip_count st ip ≤ max_peers_per_ip)
    (hlt : (st.peers.filter (fun p => p.endpoint.ip == ep.ip)).length < max_peers_per_ip) :
    ip_count ⟨st.peers ++ [⟨ep, version, now⟩], leg⟩ ip ≤ max_peers_per_ip := by
  unfold ip_count
  simp only [List.filter_append, List.length_append]
  by_cases hip : ep.ip = ip
  · subst hip
    have hone : (([⟨ep, version, now⟩] : List peer_information).filter
        (fun p => p.endpoint.ip == ep.ip)).length ≤ 1 := by simp
    omega
  · have hzero : (([⟨ep, version, now⟩] : List peer_information).filter
        (fun p => p.endpoint.ip == ip)).length = 0 := by simp [hip]
    have hst := hb ip
    unfold ip_count at hst
    omega

theorem peer_insert_ip_count (C : peer_consts) (net : networks)
    (nap : endpoint_t → Bool) (st : peer_container_state) (ep : endpoint_t)
    (version now : Nat) (hnet : net ≠ networks.chratos_test_network)
    (hb : ∀ ip, ip_count st ip ≤ max_peers_per_ip) :
    ∀ ip, ip_count (peer_insert C net nap st ep version now).2 ip ≤ max_peers_per_ip := by
  intro ip
  unfold peer_insert
  by_cases hnap : nap ep
  · simp only [hnap, if_pos]
    exact hb ip
  · simp only [hnap, Bool.false_eq_true, if_false]
    by_cases hver : version ≥ C.protocol_version_min
    · rw [if_pos hver]
      by_cases hknown : (st.peers.find? (fun p => p.endpoint == ep)).isSome
      · rw [if_pos hknown]
        have heq := filter_ip_map_refresh st.peers
          (fun p => if p.endpoint == ep then { p with last_contact := now } else p)
          (fun p => by by_cases h : (p.endpoint == ep) = true <;> simp [h]) ip
        show ((st.peers.map _).filter _).length ≤ _
        rw [heq]
        exact hb ip
      · rw [if_neg hknown]
        by_cases hleg : version < C.node_id_version
        · by_cases hlc : st.legacy_peers < C.max_legacy_peers
          · simp only [if_pos hleg, if_pos hlc]
            have hf1 : ¬ ((false, st.legacy_peers + 1) : Bool × Nat).1 = true := by simp
            rw [if_pos (And.intro hf1 hnet)]
            by_cases hcaps :
                ((st.peers.filter (fun p => p.endpoint.ip == ep.ip)).length ≥
                  max_peers_per_ip ∨
                (version < C.node_id_version ∧
                  (st.peers.filter (fun p => p.endpoint.ip == ep.ip &&
                    decide (p.network_version < C.node_id_version))).length ≥
                    C.max_legacy_peers_per_ip))
            · rw [if_pos hcaps]
              have hno : ¬ ¬ (true = true) := fun hc => hc rfl
              rw [if_neg hno]
              exact hb ip
            · rw [if_neg hcaps]
              rw [if_pos hf1]
              push_neg at hcaps
              exact ip_count_append_bound st ep version now _ ip hb hcaps.1
          · simp only [if_pos hleg, if_neg hlc]
            have hnC1 : ¬ (¬ True ∧ net ≠ networks.chratos_test_network) :=
              fun hc => hc.1 trivial
            rw [if_neg hnC1]
            have hno : ¬ ¬ (true = true) := fun hc => hc rfl
            rw [if_neg hno]
            exact hb ip
        · simp only [if_neg hleg]
          have hf1 : ¬ ((false, st.legacy_peers) : Bool × Nat).1 = true := by simp
          rw [if_pos (And.intro hf1 hnet)]
          by_cases hcaps :
              ((st.peers.filter (fun p => p.endpoint.ip == ep.ip)).length ≥
                max_peers_per_ip ∨
              (version < C.node_id_version ∧
                (st.peers.filter (fun p => p.endpoint.ip == ep.ip &&
                  decide (p.network_version < C.node_id_version))).length ≥
                  C.max_legacy_peers_per_ip))
          · rw [if_pos hcaps]
            have hno : ¬ ¬ (true = true) := fun hc => hc rfl
            rw [if_neg hno]
            exact hb ip
          · rw [if_neg hcaps]
            rw [if_pos hf1]
            push_neg at hcaps
            exact ip_count_append_bound st ep version now _ ip hb hcaps.1
    · rw [if_neg hver]
      exact hb ip

theorem peer_run_ip_count (C : peer_consts) (net : networks)
    (nap : endpoint_t → Bool) (ops : List (endpoint_t × Nat × Nat)) :
    ∀ st : peer_container_state, net ≠ networks.chratos_test_network →
    (∀ ip, ip_count st ip ≤ max_peers_per_ip) →
    ∀ ip, ip_count (peer_run C net nap st ops) ip ≤ max_peers_per_ip := by
  induction ops with
  | nil => intro st _ hb ip; exact hb ip
  | cons op ops ih =>
    intro st hnet hb ip
    exact ih _ hnet (peer_insert_ip_count C net nap st op.1 op.2.1 op.2.2 hnet hb) ip

/-- C8: on the deployed (live) network, every peer-container state reachable
from empty through insert keeps at most max_peers_per_ip = 10 peers per IP;
and presenting 11 distinct endpoints of one IP to insert admits exactly 10,
with the 11th rejected and the peer set unchanged by it. -/
theorem C8_per_ip_cap :
    (∀ (C : peer_consts) (nap : endpoint_t → Bool)
      (ops : List (endpoint_t × Nat × Nat)) (ip : Nat),
      ip_count (peer_run C chratos_network nap ⟨[], 0⟩ ops) ip ≤ max_peers_per_ip) ∧
    (let C0 : peer_consts := ⟨1, 0, 500, 5⟩
    let ops := (List.range 10).map (fun i => ((⟨7, i⟩ : endpoint_t), 1, 0))
    let stf := peer_run C0 chratos_network (fun _ => false) ⟨[], 0⟩ ops
    stf.peers.length = 10 ∧ ip_count stf 7 = 10 ∧
      (peer_insert C0 chratos_network (fun _ => false) stf ⟨7, 10⟩ 1 0).1 = true ∧
      (peer_insert C0 chratos_network (fun _ => false) stf ⟨7, 10⟩ 1 0).2.peers =
        stf.peers) := by
  constructor
  · intro C nap ops ip
    exact peer_run_ip_count C chratos_network nap ops ⟨[], 0⟩ (by decide)
      (fun _ => by simp [ip_count, max_peers_per_ip]) ip
  · decide

/-! Gap cache voting (chratos::gap_cache::vote / bootstrap_threshold). -/

/-- Cache entry (chratos::gap_information): arrival, block hash, voter set. -/
structure gap_information where
  arrival : Nat
  hash : Nat
  voters : List Nat
deriving DecidableEq, Repr

structure gap_cache_state where
  blocks : List gap_information
deriving DecidableEq, Repr

/-- chratos::gap_cache::bootstrap_threshold:
(online_stake () / 256) * bootstrap_fraction_numerator, uint128 (the division
happens first, exactly as in the source). -/
def bootstrap_threshold (env : node_env) : Nat :=
  env.online_stake / 256 * env.bootstrap_fraction_numerator % 2 ^ 128

/-- Follows the spec's words: online_stake * bootstrap_fraction_numerator / 256
with exact integer arithmetic in that order. -/
def bootstrap_threshold_spec (env : node_env) : Nat :=
  env.online_stake * env.bootstrap_fraction_numerator / 256

/-- Per-hit body of the gap_cache::vote loop: insert the voter into the
entry's set; when the voter is new, sum the ledger weights of the updated
voter set (uint128) and schedule the delayed bootstrap check when the sum
strictly exceeds the threshold.  Returns the updated entry and whether the
check was scheduled (alarm.add). -/
def gap_vote_hit (env : node_env) (gi : gap_information) (voter : Nat) :
    gap_information × Bool :=
  let gi' := if voter ∈ gi.voters then gi else { gi with voters := gi.voters ++ [voter] }
  if voter ∈ gi.voters then (gi', false)
  else
    let tally := gi'.voters.foldl (fun s a => (s + env.weight a) % 2 ^ 128) 0
    (gi', decide (tally > bootstrap_threshold env))

/-- chratos::gap_cache::vote: for each hash referenced by the vote that has a
cache entry, run the hit body; collect the hashes whose delayed bootstrap
check was scheduled. -/
def gap_cache_vote (env : node_env) (st : gap_cache_state) (voter : Nat)
    (hashes : List Nat) : gap_cache_state × List Nat :=
  hashes.foldl
    (fun acc h =>
      match acc.1.blocks.find? (fun gi => gi.hash == h) with
      | some gi =>
        let r := gap_vote_hit env gi voter
        (⟨acc.1.blocks.map (fun g => if g.hash == h then r.1 else g)⟩,
          if r.2 then acc.2 ++ [h] else acc.2)
      | none => acc)
    (st, [])

/-- C9 counterexample: online_stake 129, numerator 2, one fresh voter with
ledger weight 1.  The code threshold (129 / 256) * 2 = 0 is exceeded and the
bootstrap check is scheduled, although the claimed threshold
129 * 2 / 256 = 1 is not exceeded by the cumulative weight 1. -/
theorem C9_threshold_order_counterexample :
    (let env : node_env := ⟨networks.chratos_live_network, 129, (fun _ => 1), 50, 0, 2⟩
    let st : gap_cache_state := ⟨[⟨0, 55, []⟩]⟩
    bootstrap_threshold env = 0 ∧ bootstrap_threshold_spec env = 1 ∧
      ([3] : List Nat).foldl (fun s a => (s + env.weight a) % 2 ^ 128) 0 = 1 ∧
      (gap_cache_vote env st 3 [55]).2 = [55] ∧
      ¬ (([3] : List Nat).foldl (fun s a => (s + env.weight a) % 2 ^ 128) 0 >
          bootstrap_threshold_spec env)) := by
  decide

/-- C9 amended: for a vote hitting a cache entry, the delayed bootstrap check
is scheduled exactly when the voter is newly inserted and the cumulative
uint128 ledger weight of the entry's voters (including the new one) strictly
exceeds (online_stake / 256) * bootstrap_fraction_numerator - the division
happening before the multiplication. -/
theorem C9_bootstrap_schedule_iff :
    (∀ (env : node_env) (gi : gap_information) (voter : Nat),
      ((gap_vote_hit env gi voter).2 = true ↔
        (voter ∉ gi.voters ∧
          (gi.voters ++ [voter]).foldl (fun s a => (s + env.weight a) % 2 ^ 128) 0 >
            bootstrap_threshold env)) ∧
      (gap_vote_hit env gi voter).1.voters =
        (if voter ∈ gi.voters then gi.voters else gi.voters ++ [voter])) ∧
    (∀ (env : node_env) (st : gap_cache_state) (voter h : Nat)
      (gi : gap_information),
      st.blocks.find? (fun g => g.hash == h) = some gi →
      ((gap_cache_vote env st voter [h]).2 = [h] ↔
        (voter ∉ gi.voters ∧
          (gi.voters ++ [voter]).foldl (fun s a => (s + env.weight a) % 2 ^ 128) 0 >
            bootstrap_threshold env))) := by
  have hit : ∀ (env : node_env) (gi : gap_information) (voter : Nat),
      ((gap_vote_hit env gi voter).2 = true ↔
        (voter ∉ gi.voters ∧
          (gi.voters ++ [voter]).foldl (fun s a => (s + env.weight a) % 2 ^ 128) 0 >
            bootstrap_threshold env)) := by
    intro env gi voter
    unfold gap_vote_hit
    by_cases hmem : voter ∈ gi.voters
    · simp [hmem]
    · simp [hmem]
  refine ⟨fun env gi voter => ⟨hit env gi voter, ?_⟩, ?_⟩
  · unfold gap_vote_hit
    by_cases hmem : voter ∈ gi.voters
    · simp [hmem]
    · simp [hmem]
  · intro env st voter h gi hfind
    unfold gap_cache_vote
    simp only [List.foldl_cons, List.foldl_nil, hfind]
    by_cases hsched : (gap_vote_hit env gi voter).2 = true
    · rw [hsched]
      simp only [if_true]
      constructor
      · intro _
        exact (hit env gi voter).mp hsched
      · intro _
        rfl
    · simp only [Bool.not_eq_true] at hsched
      rw [hsched]
      simp only [Bool.false_eq_true, if_false]
      constructor
      · intro hcon
        simp at hcon
      · intro hcond
        exact absurd ((hit env gi voter).mpr hcond) (by simp [hsched])

theorem C9_bootstrap_schedule_iff_witness :
    (gap_cache_vote ⟨networks.chratos_live_network, 129, (fun _ => 1), 50, 0, 2⟩
        ⟨[⟨0, 55, []⟩]⟩ 3 [55]).2 = [55] :=
  (C9_bootstrap_schedule_iff.2 ⟨networks.chratos_live_network, 129, (fun _ => 1), 50, 0, 2⟩
    ⟨[⟨0, 55, []⟩]⟩ 3 55 ⟨0, 55, []⟩ (by decide)).mpr (by decide)

end chratos
